import Mathlib

/-!
Verification of the multi-armed bandit core (`bandit_core.py`, `bandits.py`).

The Python code is shallowly embedded: floats become rationals (every value
the code produces from binary rewards by the incremental-mean rule is an
exact rational; the spec blesses exact-rational reasoning for the mean),
the ambient random source becomes explicit oracle arguments (one uniform
draw `u` per `random.random()` call, one arm per `random.randrange`), and
Python's IndexError becomes `Option.none` (the exception is raised by the
first failed list read, before any write, so no partially-mutated state
escapes). Python list indexing, including its negative-index aliasing, is
modelled by `listGetPy` / `listSetPy`. `np.argmax` (first occurrence of the
maximum) is modelled by `npArgmax`. UCB1 scores live in `WithTop ℝ`, with
`⊤` standing for `float("inf")`.
-/

namespace Bandits

/-- Python list read `l[i]`: nonnegative indices are read directly, negative
indices alias `i + len(l)`, anything else raises IndexError (`none`). -/
def listGetPy {α : Type} (l : List α) (i : Int) : Option α :=
  if 0 ≤ i then l.get? i.toNat
  else if 0 ≤ i + l.length then l.get? (i + l.length).toNat
  else none

/-- Python list write `l[i] = a`, same index discipline as `listGetPy`. -/
def listSetPy {α : Type} (l : List α) (i : Int) (a : α) : Option (List α) :=
  if 0 ≤ i then
    if i.toNat < l.length then some (l.set i.toNat a) else none
  else if 0 ≤ i + l.length then some (l.set (i + l.length).toNat a)
  else none

/-- `np.argmax`: index of the first occurrence of the maximum (0 on []). -/
def npArgmax {α : Type} [LinearOrder α] : List α → ℕ
  | [] => 0
  | x :: xs => if ∀ y ∈ xs, y ≤ x then 0 else npArgmax xs + 1

/-- State of `BaseBandit` (bandit_core.py): arm count, hidden success
probabilities, per-arm pull counts and running mean estimates. -/
structure BaseBandit where
  n_arms : ℕ
  true_probs : List ℚ
  counts : List ℕ
  values : List ℚ
  deriving DecidableEq, Repr

/-- Python truthiness of the `true_probs or np.random.uniform(...)` default:
`None` and the empty list are both falsy and are replaced by the freshly
sampled list. -/
def pyProbsOr (true_probs : Option (List ℚ)) (sampled : List ℚ) : List ℚ :=
  match true_probs with
  | none => sampled
  | some l => if l = [] then sampled else l

/-- `BaseBandit.__init__`. `sampled` stands for the oracle draw
`np.random.uniform(0.1, 0.9, size=n_arms).tolist()`; the constructor
performs no validation of any argument. -/
def BaseBandit.init (n_arms : ℕ) (true_probs : Option (List ℚ))
    (sampled : List ℚ) : BaseBandit :=
  ⟨n_arms, pyProbsOr true_probs sampled,
    List.replicate n_arms 0, List.replicate n_arms 0⟩

/-- `BaseBandit.reward(arm)`: `int(random.random() < true_probs[arm])`,
with `u` the oracle value of `random.random()`. -/
def BaseBandit.reward (b : BaseBandit) (arm : Int) (u : ℚ) : Option ℕ :=
  (listGetPy b.true_probs arm).map (fun p => if u < p then 1 else 0)

/-- `BaseBandit.update(arm, reward)`:
`counts[arm] += 1; n = counts[arm]; values[arm] += (reward - values[arm]) / n`. -/
def BaseBandit.update (b : BaseBandit) (arm : Int) (reward : ℚ) :
    Option BaseBandit := do
  let c ← listGetPy b.counts arm
  let counts ← listSetPy b.counts arm (c + 1)
  let n : ℕ := c + 1
  let v ← listGetPy b.values arm
  let values ← listSetPy b.values arm (v + (reward - v) / (n : ℚ))
  some { b with counts := counts, values := values }

/-- `BaseBandit.estimated_means()`: returns `values` unchanged. -/
def BaseBandit.estimated_means (b : BaseBandit) : List ℚ := b.values

/-- The list `errors` built inside `BaseBandit.rmse`. -/
def BaseBandit.sqErrors (b : BaseBandit) : List ℚ :=
  (b.estimated_means.zip b.true_probs).map (fun et => (et.1 - et.2) ^ 2)

/-- `np.mean(errors)` as exact rational arithmetic. -/
def BaseBandit.mse (b : BaseBandit) : ℚ := b.sqErrors.sum / (b.sqErrors.length : ℚ)

/-- `BaseBandit.rmse()`: `np.sqrt(np.mean(errors))`. A pure function of the
state: the Python method mutates nothing. -/
noncomputable def BaseBandit.rmse (b : BaseBandit) : ℝ := Real.sqrt ((b.mse : ℚ) : ℝ)

/-- Repeated `update` calls on one fixed arm (the sequence of C1). -/
def BaseBandit.updates (b : BaseBandit) (i : ℕ) (rs : List ℚ) : Option BaseBandit :=
  rs.foldlM (fun s r => s.update (i : Int) r) b

/-- The RMSE formula in the words of the spec, for comparison with the
code's `rmse`: `sqrt(mean over all n_arms entries of (est_i - true_i)^2)`. -/
noncomputable def specRmse (b : BaseBandit) : ℝ :=
  Real.sqrt (((∑ i ∈ Finset.range b.n_arms,
    (b.estimated_means.getD i 0 - b.true_probs.getD i 0) ^ 2) / (b.n_arms : ℚ) : ℚ))

/-- State of `EpsilonGreedy` (bandits.py): the base plus the exploration
rate and the two diagnostic tally counters. -/
structure EpsilonGreedy where
  base : BaseBandit
  epsilon : ℚ
  explore_count : ℕ
  exploit_count : ℕ
  deriving DecidableEq, Repr

/-- `EpsilonGreedy.__init__`; no validation of `epsilon` or anything else. -/
def EpsilonGreedy.init (n_arms : ℕ) (epsilon : ℚ) (true_probs : Option (List ℚ))
    (sampled : List ℚ) : EpsilonGreedy :=
  ⟨BaseBandit.init n_arms true_probs sampled, epsilon, 0, 0⟩

/-- `EpsilonGreedy.pull()`: `u` is the oracle value of `random.random()`,
`exploreArm` the oracle value of `random.randrange(n_arms)`. Exploit when
`u > epsilon`, else explore. -/
def EpsilonGreedy.pull (b : EpsilonGreedy) (u : ℚ) (exploreArm : ℕ) :
    EpsilonGreedy × ℕ :=
  if b.epsilon < u then
    ({ b with exploit_count := b.exploit_count + 1 }, npArgmax b.base.values)
  else
    ({ b with explore_count := b.explore_count + 1 }, exploreArm)

/-- State of `UCB1` (bandits.py): the base plus the total pull counter. -/
structure UCB1 where
  base : BaseBandit
  total_pulls : ℕ
  deriving DecidableEq, Repr

/-- `UCB1.__init__`. -/
def UCB1.init (n_arms : ℕ) (true_probs : Option (List ℚ)) (sampled : List ℚ) : UCB1 :=
  ⟨BaseBandit.init n_arms true_probs sampled, 0⟩

/-- The score `UCB1.pull` computes for arm `i` (after `total_pulls` was
already incremented): `float("inf")` (= `⊤`) for a never-pulled arm, else
`values[i] + sqrt(2 * log(total_pulls) / counts[i])`. The `getD` reads are
the in-range reads `counts[i]`, `values[i]` of the loop `for i in
range(n_arms)`; they rely on the length invariant `len(counts) =
len(values) = n_arms`. -/
noncomputable def UCB1.score (b : UCB1) (i : ℕ) : WithTop ℝ :=
  if b.base.counts.getD i 0 = 0 then ⊤
  else (((b.base.values.getD i 0 : ℝ) +
    Real.sqrt (2 * Real.log (b.total_pulls : ℝ) / (b.base.counts.getD i 0 : ℝ)) : ℝ) :
    WithTop ℝ)

/-- `UCB1.pull()`: increment `total_pulls` first, then argmax of the scores. -/
noncomputable def UCB1.pull (b : UCB1) : UCB1 × ℕ :=
  let b2 : UCB1 := { b with total_pulls := b.total_pulls + 1 }
  (b2, npArgmax ((List.range b.base.n_arms).map b2.score))

/-- `UCB1.update`: delegates to the base update. -/
def UCB1.update (b : UCB1) (arm : Int) (reward : ℚ) : Option UCB1 :=
  (b.base.update arm reward).map (fun base => { b with base := base })

/-- One `pull` followed by `update(pulled_arm, r)` (the driver cycle). -/
noncomputable def UCB1.pullUpdate (b : UCB1) (r : ℚ) : Option (UCB1 × ℕ) :=
  (((b.pull).1).update ((b.pull).2 : Int) r).map (fun b2 => (b2, (b.pull).2))

/-- A sequence of pull/update cycles, collecting the pulled arms in order. -/
noncomputable def UCB1.run (b : UCB1) (rs : List ℚ) : Option (UCB1 × List ℕ) :=
  rs.foldlM (fun s r => (s.1.pullUpdate r).map (fun q => (q.1, s.2 ++ [q.2]))) (b, [])

/-- State of `Thompson` (bandits.py): the base plus the Beta posterior
shape parameters. -/
structure Thompson where
  base : BaseBandit
  alphas : List ℚ
  betas : List ℚ
  deriving DecidableEq, Repr

/-- `Thompson.__init__`; no validation of `initial_alpha`/`initial_beta`. -/
def Thompson.init (n_arms : ℕ) (initial_alpha initial_beta : ℚ)
    (true_probs : Option (List ℚ)) (sampled : List ℚ) : Thompson :=
  ⟨BaseBandit.init n_arms true_probs sampled,
    List.replicate n_arms initial_alpha, List.replicate n_arms initial_beta⟩

/-- `Thompson.update(arm, reward)`: base update, then `alphas[arm] += 1` when
the reward is truthy (nonzero), else `betas[arm] += 1`. -/
def Thompson.update (t : Thompson) (arm : Int) (reward : ℚ) : Option Thompson := do
  let b ← t.base.update arm reward
  if reward ≠ 0 then
    let a ← listGetPy t.alphas arm
    let alphas ← listSetPy t.alphas arm (a + 1)
    some { t with base := b, alphas := alphas }
  else
    let bv ← listGetPy t.betas arm
    let betas ← listSetPy t.betas arm (bv + 1)
    some { t with base := b, betas := betas }

/-- One iteration of the `warm_up` loop body for `arm`, with `u` the oracle
draw consumed by `reward(arm)`: `rwd = reward(arm)`, base `update`, then
`alphas[arm] += rwd; betas[arm] += 1 - rwd`. The session-state bookkeeping
and CSV logging of the Python body touch only the external presentation
layer, not the bandit state, and are not modelled. -/
def Thompson.warmUpStep (t : Thompson) (arm : ℕ) (u : ℚ) : Option Thompson := do
  let r ← t.base.reward (arm : Int) u
  let b ← t.base.update (arm : Int) (r : ℚ)
  let a ← listGetPy t.alphas (arm : Int)
  let alphas ← listSetPy t.alphas (arm : Int) (a + (r : ℚ))
  let bv ← listGetPy t.betas (arm : Int)
  let betas ← listSetPy t.betas (arm : Int) (bv + (1 - (r : ℚ)))
  some { t with base := b, alphas := alphas, betas := betas }

/-- `Thompson.warm_up`: one loop iteration per arm, in index order
`0..n_arms-1`; `us arm` is the oracle uniform draw consumed at `arm`. -/
def Thompson.warm_up (t : Thompson) (us : ℕ → ℚ) : Option Thompson :=
  (List.range t.base.n_arms).foldlM (fun s arm => s.warmUpStep arm (us arm)) t

/-- Models `np.random.uniform(0.1, 0.9, size=n).tolist()` for a Python
`int` size: numpy raises `ValueError: negative dimensions are not allowed`
when `n < 0` (modelled `none`); otherwise it returns the oracle draw
`sampled` (`size = 0` gives the empty array, `sampled = []`). -/
def npUniform (size : Int) (sampled : List ℚ) : Option (List ℚ) :=
  if size < 0 then none else some sampled

/-- `BaseBandit.__init__` over the full `int` range of `n_arms`
(`BaseBandit.init` is the same constructor restricted to `n_arms ≥ 0`).
Python's `true_probs or np.random.uniform(0.1, 0.9, size=n_arms)`
short-circuits: the sampler — and its `ValueError` on a negative size —
runs only when `true_probs` is falsy (`None` or `[]`). `[0] * n_arms` is
empty for `n_arms ≤ 0`, which `Int.toNat` reproduces; the ℕ-typed
`n_arms` field records a stored negative `int` as `toNat = 0`, and is
read by no operation in that regime. -/
def BaseBandit.initInt (n_arms : Int) (true_probs : Option (List ℚ))
    (sampled : List ℚ) : Option BaseBandit :=
  (match true_probs with
    | none => npUniform n_arms sampled
    | some l => if l = [] then npUniform n_arms sampled else some l).map
    (fun tp => ⟨n_arms.toNat, tp, List.replicate n_arms.toNat 0,
      List.replicate n_arms.toNat 0⟩)

/-- `EpsilonGreedy.__init__` over `int` `n_arms`: `super().__init__` runs
first, so a sampler `ValueError` propagates before `epsilon` is stored. -/
def EpsilonGreedy.initInt (n_arms : Int) (epsilon : ℚ)
    (true_probs : Option (List ℚ)) (sampled : List ℚ) : Option EpsilonGreedy :=
  (BaseBandit.initInt n_arms true_probs sampled).map (fun b => ⟨b, epsilon, 0, 0⟩)

/-- `UCB1.__init__` over `int` `n_arms`. -/
def UCB1.initInt (n_arms : Int) (true_probs : Option (List ℚ))
    (sampled : List ℚ) : Option UCB1 :=
  (BaseBandit.initInt n_arms true_probs sampled).map (fun b => ⟨b, 0⟩)

/-- `Thompson.__init__` over `int` `n_arms`: `[initial_alpha] * n_arms` is
empty for `n_arms ≤ 0`, like the base lists. -/
def Thompson.initInt (n_arms : Int) (initial_alpha initial_beta : ℚ)
    (true_probs : Option (List ℚ)) (sampled : List ℚ) : Option Thompson :=
  (BaseBandit.initInt n_arms true_probs sampled).map
    (fun b => ⟨b, List.replicate n_arms.toNat initial_alpha,
      List.replicate n_arms.toNat initial_beta⟩)

/-! Helper lemmas about the Python indexing primitives. -/

theorem listGetPy_natCast {α : Type} (l : List α) (i : ℕ) :
    listGetPy l (i : Int) = l.get? i := by
  simp [listGetPy]

theorem listSetPy_natCast {α : Type} (l : List α) (i : ℕ) (a : α) (h : i < l.length) :
    listSetPy l (i : Int) a = some (l.set i a) := by
  simp [listSetPy, h]

theorem get?_eq_some_getD {α : Type} (l : List α) (i : ℕ) (d : α) (h : i < l.length) :
    l.get? i = some (l.getD i d) := by
  rw [List.getD_eq_getElem l d h, List.get?_eq_getElem?, List.getElem?_eq_getElem h]

theorem getD_set_self {α : Type} (l : List α) (i : ℕ) (a d : α) (h : i < l.length) :
    (l.set i a).getD i d = a := by
  rw [List.getD_eq_getElem _ d (by simpa using h)]
  simp [List.getElem_set_self]

theorem getD_set_ne {α : Type} (l : List α) (i j : ℕ) (a d : α) (h : i ≠ j) :
    (l.set i a).getD j d = l.getD j d := by
  rw [List.getD_eq_getD_get?, List.getD_eq_getD_get?, List.get?_set_ne _ _ h]

/-- Characterization of a single in-range `update` at a nonnegative arm. -/
theorem update_natCast (b : BaseBandit) (i : ℕ) (r : ℚ)
    (hc : i < b.counts.length) (hv : i < b.values.length) :
    b.update (i : Int) r = some
      { b with
        counts := b.counts.set i (b.counts.getD i 0 + 1),
        values := b.values.set i (b.values.getD i 0 +
          (r - b.values.getD i 0) / (((b.counts.getD i 0 + 1 : ℕ) : ℚ))) } := by
  simp only [BaseBandit.update, listGetPy_natCast, listSetPy_natCast _ _ _ hc,
    listSetPy_natCast _ _ _ hv, get?_eq_some_getD _ _ 0 hc, get?_eq_some_getD _ _ 0 hv,
    Option.bind_eq_bind, Option.some_bind]

/-! Correctness of `npArgmax`: it returns an in-range index attaining the
maximum, and every strictly earlier index holds a strictly smaller value. -/

theorem npArgmax_lt_length {α : Type} [LinearOrder α] (l : List α) (h : l ≠ []) :
    npArgmax l < l.length := by
  induction l with
  | nil => cases h rfl
  | cons x xs ih =>
    by_cases hall : ∀ y ∈ xs, y ≤ x
    · simp only [npArgmax, if_pos hall, List.length_cons]
      exact Nat.succ_pos _
    · have hxs : xs ≠ [] := by
        rintro rfl
        exact hall (by intro y hy; cases hy)
      simp only [npArgmax, if_neg hall, List.length_cons]
      exact Nat.succ_lt_succ (ih hxs)

theorem npArgmax_is_max {α : Type} [LinearOrder α] (l : List α) (d : α) (j : ℕ)
    (hj : j < l.length) : l.getD j d ≤ l.getD (npArgmax l) d := by
  induction l generalizing j with
  | nil => simp at hj
  | cons x xs ih =>
    by_cases hall : ∀ y ∈ xs, y ≤ x
    · simp only [npArgmax, if_pos hall]
      cases j with
      | zero => simp
      | succ j =>
        simp only [List.getD_cons_succ, List.getD_cons_zero]
        have hj' : j < xs.length := Nat.lt_of_succ_lt_succ (by simpa using hj)
        rw [List.getD_eq_getElem _ _ hj']
        exact hall _ (List.getElem_mem hj')
    · have hxs : xs ≠ [] := by
        rintro rfl
        exact hall (by intro y hy; cases hy)
      push_neg at hall
      obtain ⟨y, hy, hxy⟩ := hall
      simp only [npArgmax, if_neg (by push_neg; exact ⟨y, hy, hxy⟩ :
        ¬ ∀ y ∈ xs, y ≤ x)]
      cases j with
      | zero =>
        simp only [List.getD_cons_zero, List.getD_cons_succ]
        obtain ⟨k, hk, hky⟩ := List.getElem_of_mem hy
        have : y ≤ xs.getD (npArgmax xs) d := by
          have := ih k hk
          rwa [List.getD_eq_getElem _ _ hk, hky] at this
        exact le_of_lt (lt_of_lt_of_le hxy this)
      | succ j =>
        simp only [List.getD_cons_succ]
        exact ih j (Nat.lt_of_succ_lt_succ hj)

theorem npArgmax_first {α : Type} [LinearOrder α] (l : List α) (d : α) (j : ℕ)
    (hj : j < npArgmax l) : l.getD j d < l.getD (npArgmax l) d := by
  induction l generalizing j with
  | nil => simp [npArgmax] at hj
  | cons x xs ih =>
    by_cases hall : ∀ y ∈ xs, y ≤ x
    · simp [npArgmax, if_pos hall] at hj
    · push_neg at hall
      obtain ⟨y, hy, hxy⟩ := hall
      have hneg : ¬ ∀ y ∈ xs, y ≤ x := by push_neg; exact ⟨y, hy, hxy⟩
      simp only [npArgmax, if_neg hneg] at hj ⊢
      cases j with
      | zero =>
        simp only [List.getD_cons_zero, List.getD_cons_succ]
        obtain ⟨k, hk, hky⟩ := List.getElem_of_mem hy
        have hle : y ≤ xs.getD (npArgmax xs) d := by
          have := npArgmax_is_max xs d k hk
          rwa [List.getD_eq_getElem _ _ hk, hky] at this
        exact lt_of_lt_of_le hxy hle
      | succ j =>
        simp only [List.getD_cons_succ]
        exact ih j (Nat.lt_of_succ_lt_succ hj)

/-- Running invariant of repeated updates on arm `i`: the count grows by the
number of rewards and `values[i] * count` tracks the running reward sum. -/
theorem updates_spec (rs : List ℚ) : ∀ (b : BaseBandit) (i : ℕ),
    i < b.counts.length → i < b.values.length →
    ∃ b', b.updates i rs = some b'
      ∧ b'.counts.length = b.counts.length
      ∧ b'.values.length = b.values.length
      ∧ b'.counts.getD i 0 = b.counts.getD i 0 + rs.length
      ∧ b'.values.getD i 0 * ((b.counts.getD i 0 : ℚ) + (rs.length : ℚ)) =
          b.values.getD i 0 * (b.counts.getD i 0 : ℚ) + rs.sum := by
  induction rs with
  | nil =>
    intro b i _ _
    exact ⟨b, rfl, rfl, rfl, by simp, by simp⟩
  | cons r rs ih =>
    intro b i hc hv
    have hstep := update_natCast b i r hc hv
    set c := b.counts.getD i 0 with hcdef
    set v := b.values.getD i 0 with hvdef
    set b1 : BaseBandit :=
      { b with
        counts := b.counts.set i (c + 1),
        values := b.values.set i (v + (r - v) / (((c + 1 : ℕ) : ℚ))) } with hb1
    have hc1 : i < b1.counts.length := by simpa [hb1] using hc
    have hv1 : i < b1.values.length := by simpa [hb1] using hv
    obtain ⟨b', hrun, hlenc, hlenv, hcount, hval⟩ := ih b1 i hc1 hv1
    have hb1c : b1.counts.getD i 0 = c + 1 := getD_set_self _ _ _ _ hc
    have hb1v : b1.values.getD i 0 = v + (r - v) / (((c + 1 : ℕ) : ℚ)) :=
      getD_set_self _ _ _ _ hv
    refine ⟨b', ?_, ?_, ?_, ?_, ?_⟩
    · simp only [BaseBandit.updates, List.foldlM_cons, hstep, Option.bind_eq_bind,
        Option.some_bind]
      simpa [BaseBandit.updates] using hrun
    · simpa [hb1] using hlenc
    · simpa [hb1] using hlenv
    · rw [hcount, hb1c]
      simp only [List.length_cons]
      omega
    · rw [hb1c, hb1v] at hval
      have hne : ((c : ℚ) + 1) ≠ 0 := by positivity
      have key : (v + (r - v) / ((c : ℚ) + 1)) * ((c : ℚ) + 1) = v * c + r := by
        field_simp
        ring
      simp only [List.sum_cons, List.length_cons]
      push_cast at hval ⊢
      calc b'.values.getD i 0 * ((c : ℚ) + ((rs.length : ℚ) + 1))
          = b'.values.getD i 0 * (((c : ℚ) + 1) + (rs.length : ℚ)) := by ring
        _ = (v + (r - v) / ((c : ℚ) + 1)) * ((c : ℚ) + 1) + rs.sum := hval
        _ = v * c + r + rs.sum := by rw [key]
        _ = v * (c : ℚ) + (r + rs.sum) := by ring

/-- C1. Starting from a fresh instance, `n` updates with rewards `rs` on a
fixed in-range arm `i` leave `counts[i] = n` and `values[i]` the exact
rational arithmetic mean of `rs` (when `rs = []`, `values[i]` stays `0`,
which is also `sum/length` under the ℚ convention `0/0 = 0`). -/
theorem incremental_mean_correct (n i : ℕ) (tp : Option (List ℚ)) (s : List ℚ)
    (rs : List ℚ) (hi : i < n) :
    ∃ b', (BaseBandit.init n tp s).updates i rs = some b'
      ∧ b'.counts.getD i 0 = rs.length
      ∧ b'.values.getD i 0 = rs.sum / (rs.length : ℚ) := by
  have hc : i < (BaseBandit.init n tp s).counts.length := by
    simpa [BaseBandit.init] using hi
  have hv : i < (BaseBandit.init n tp s).values.length := by
    simpa [BaseBandit.init] using hi
  obtain ⟨b', hrun, _, _, hcount, hval⟩ := updates_spec rs (BaseBandit.init n tp s) i hc hv
  have hc0 : (BaseBandit.init n tp s).counts.getD i 0 = 0 := by
    simp [BaseBandit.init]
  have hv0 : (BaseBandit.init n tp s).values.getD i 0 = 0 := by
    simp [BaseBandit.init]
  rw [hc0] at hcount
  rw [hc0, hv0] at hval
  refine ⟨b', hrun, by simpa using hcount, ?_⟩
  rcases rs with _ | ⟨r0, rs0⟩
  · have hb : (BaseBandit.init n tp s).updates i ([] : List ℚ) =
        some (BaseBandit.init n tp s) := rfl
    rw [hb] at hrun
    cases hrun
    simpa using hv0
  · have hne : (((r0 :: rs0).length : ℚ)) ≠ 0 := by
      simp only [List.length_cons]
      push_cast
      positivity
    rw [eq_div_iff hne]
    simpa using hval

/-- C1 witness: two updates with rewards 1, 0 on arm 0 of a fresh one-arm
instance give count 2 and value `(1+0)/2`. -/
theorem incremental_mean_correct_witness :
    0 < 1 ∧ ∃ b', (BaseBandit.init 1 none []).updates 0 [1, 0] = some b'
      ∧ b'.counts.getD 0 0 = ([1, 0] : List ℚ).length
      ∧ b'.values.getD 0 0 = ([1, 0] : List ℚ).sum / ((([1, 0] : List ℚ).length : ℚ)) :=
  ⟨Nat.one_pos, incremental_mean_correct 1 0 none [] [1, 0] Nat.one_pos⟩

/-- C2 counterexample: construction raises nothing. With `n_arms = 2`,
`epsilon = 5 ∉ [0,1]`, a `true_probs` of length 1 ≠ 2 whose only entry 2 is
outside [0,1], and non-positive `initial_alpha`/`initial_beta`, every
constructor returns a fully built instance storing the invalid values. -/
theorem construction_no_error_cex :
    (EpsilonGreedy.init 2 5 (some [2]) []).epsilon = 5
    ∧ (EpsilonGreedy.init 2 5 (some [2]) []).base.true_probs = [2]
    ∧ (EpsilonGreedy.init 2 5 (some [2]) []).base.n_arms = 2
    ∧ (Thompson.init 2 (-1) 0 none []).alphas = [-1, -1]
    ∧ (Thompson.init 2 (-1) 0 none []).betas = [0, 0]
    ∧ (EpsilonGreedy.init 0 5 none []).base.n_arms = 0 := by
  decide

/-- C2 amended: construction performs none of the claimed validation — no
ConfigurationError exists. For every `n_arms : ℤ` and every non-falsy
`true_probs` (any length, any entries), each strategy constructor returns
an instance storing `epsilon`, `initial_alpha`/`initial_beta` (replicated)
and `true_probs` exactly as given; with a falsy `true_probs`, construction
still succeeds for every `n_arms ≥ 0` (storing the sampled list). The one
raising case is incidental: `n_arms < 0` with falsy `true_probs` reaches
`np.random.uniform(0.1, 0.9, size=n_arms)`, whose `ValueError` (not a
configuration check of the library) aborts every constructor. -/
theorem construction_stores_arguments (n : Int) (eps a c : ℚ) (tp s : List ℚ)
    (hne : tp ≠ []) :
    (∃ b, EpsilonGreedy.initInt n eps (some tp) s = some b
      ∧ b.epsilon = eps ∧ b.base.true_probs = tp)
    ∧ (∃ b, UCB1.initInt n (some tp) s = some b ∧ b.base.true_probs = tp)
    ∧ (∃ b, Thompson.initInt n a c (some tp) s = some b
      ∧ b.alphas = List.replicate n.toNat a
      ∧ b.betas = List.replicate n.toNat c
      ∧ b.base.true_probs = tp)
    ∧ (0 ≤ n → ∃ b, BaseBandit.initInt n none s = some b ∧ b.true_probs = s)
    ∧ (n < 0 → BaseBandit.initInt n none s = none
      ∧ EpsilonGreedy.initInt n eps none s = none
      ∧ UCB1.initInt n none s = none
      ∧ Thompson.initInt n a c none s = none) := by
  have hbase : BaseBandit.initInt n (some tp) s =
      some ⟨n.toNat, tp, List.replicate n.toNat 0, List.replicate n.toNat 0⟩ := by
    simp [BaseBandit.initInt, hne]
  refine ⟨⟨⟨⟨n.toNat, tp, List.replicate n.toNat 0, List.replicate n.toNat 0⟩,
      eps, 0, 0⟩, ?_, rfl, rfl⟩,
    ⟨⟨⟨n.toNat, tp, List.replicate n.toNat 0, List.replicate n.toNat 0⟩, 0⟩,
      ?_, rfl⟩,
    ⟨⟨⟨n.toNat, tp, List.replicate n.toNat 0, List.replicate n.toNat 0⟩,
      List.replicate n.toNat a, List.replicate n.toNat c⟩, ?_, rfl, rfl, rfl⟩,
    ?_, ?_⟩
  · simp [EpsilonGreedy.initInt, hbase]
  · simp [UCB1.initInt, hbase]
  · simp [Thompson.initInt, hbase]
  · intro hnn
    exact ⟨⟨n.toNat, s, List.replicate n.toNat 0, List.replicate n.toNat 0⟩,
      by simp [BaseBandit.initInt, npUniform, not_lt.mpr hnn], rfl⟩
  · intro hneg
    have hnone : BaseBandit.initInt n none s = none := by
      simp [BaseBandit.initInt, npUniform, hneg]
    exact ⟨hnone, by simp [EpsilonGreedy.initInt, hnone],
      by simp [UCB1.initInt, hnone], by simp [Thompson.initInt, hnone]⟩

/-- C2 amended witness: `n_arms = 2` with `epsilon = 5`, `initial_alpha =
-1`, `initial_beta = 0`, `true_probs = [2]` constructs and stores the
invalid values; `n_arms = -1` with falsy `true_probs` hits the sampler's
`ValueError`. -/
theorem construction_stores_arguments_witness :
    (∃ b, EpsilonGreedy.initInt 2 5 (some [2]) [] = some b
      ∧ b.epsilon = 5 ∧ b.base.true_probs = [2])
    ∧ BaseBandit.initInt (-1) none [] = none :=
  have h1 := construction_stores_arguments 2 5 (-1) 0 [2] [] (by decide)
  have h2 := construction_stores_arguments (-1) 5 (-1) 0 [2] [] (by decide)
  ⟨h1.1, (h2.2.2.2.2 (by decide)).1⟩

/-- Out-of-range Python read: `none` exactly beyond both index conventions. -/
theorem listGetPy_none {α : Type} (l : List α) (i : Int)
    (h : (l.length : Int) ≤ i ∨ i < -(l.length : Int)) : listGetPy l i = none := by
  rcases h with h | h
  · have h0 : 0 ≤ i := le_trans (by positivity) h
    rw [listGetPy, if_pos h0, List.get?_eq_none]
    omega
  · have h1 : ¬ 0 ≤ i := by omega
    have h2 : ¬ 0 ≤ i + l.length := by omega
    simp [listGetPy, h1, h2]

/-- Negative in-range Python read aliases `i + len(l)`. -/
theorem listGetPy_neg_alias {α : Type} (l : List α) (i : Int) (h1 : i < 0)
    (h2 : 0 ≤ i + l.length) : listGetPy l i = listGetPy l (i + l.length) := by
  simp [listGetPy, not_le.mpr h1, h2]

/-- Negative in-range Python write aliases `i + len(l)`. -/
theorem listSetPy_neg_alias {α : Type} (l : List α) (i : Int) (a : α) (h1 : i < 0)
    (h2 : 0 ≤ i + l.length) : listSetPy l i a = listSetPy l (i + l.length) a := by
  have h3 : (i + l.length).toNat < l.length := by omega
  simp [listSetPy, not_le.mpr h1, h2, h3]

/-- C3 counterexample: arm `-1` is outside `[0, n_arms)` but raises nothing.
On a fresh 2-arm instance, `update(-1, 1)` succeeds and mutates arm 1's
count and value, and `reward(-1)` succeeds, sampling from arm 1. -/
theorem negative_arm_no_error_cex :
    (BaseBandit.init 2 (some [1, 1]) []).update (-1) 1 =
      some ⟨2, [1, 1], [0, 1], [0, 1]⟩
    ∧ (BaseBandit.init 2 (some [1, 1]) []).reward (-1) 0 = some 1 := by
  have h : ¬ (([1, 1] : List ℚ) = []) := by decide
  norm_num [BaseBandit.init, pyProbsOr, BaseBandit.update, BaseBandit.reward,
    listGetPy, listSetPy, h, List.replicate]

/-- C3 amended: `reward`/`update` fail with an IndexError (modelled `none`,
raised by the first list read, before any write) exactly when
`arm ≥ n_arms` or `arm < -n_arms`; an arm in `[-n_arms, -1]` is instead
silently aliased to arm `arm + n_arms` by Python's negative indexing. -/
theorem arm_index_error_range (b : BaseBandit) (arm : Int) (r u : ℚ)
    (hc : b.counts.length = b.n_arms) (hv : b.values.length = b.n_arms)
    (ht : b.true_probs.length = b.n_arms) :
    (((b.n_arms : Int) ≤ arm ∨ arm < -(b.n_arms : Int)) →
      b.update arm r = none ∧ b.reward arm u = none)
    ∧ (-(b.n_arms : Int) ≤ arm → arm < 0 →
      b.update arm r = b.update (arm + (b.n_arms : Int)) r
      ∧ b.reward arm u = b.reward (arm + (b.n_arms : Int)) u) := by
  constructor
  · intro h
    have hcn : listGetPy b.counts arm = none := by
      apply listGetPy_none
      rw [hc]
      exact h
    have htn : listGetPy b.true_probs arm = none := by
      apply listGetPy_none
      rw [ht]
      exact h
    constructor
    · simp [BaseBandit.update, hcn]
    · simp [BaseBandit.reward, htn]
  · intro h1 h2
    have hgc : listGetPy b.counts arm = listGetPy b.counts (arm + (b.n_arms : Int)) := by
      rw [listGetPy_neg_alias b.counts arm h2 (by omega), hc]
    have hgv : listGetPy b.values arm = listGetPy b.values (arm + (b.n_arms : Int)) := by
      rw [listGetPy_neg_alias b.values arm h2 (by omega), hv]
    have hgt : listGetPy b.true_probs arm =
        listGetPy b.true_probs (arm + (b.n_arms : Int)) := by
      rw [listGetPy_neg_alias b.true_probs arm h2 (by omega), ht]
    have hsc : ∀ x, listSetPy b.counts arm x =
        listSetPy b.counts (arm + (b.n_arms : Int)) x := by
      intro x
      rw [listSetPy_neg_alias b.counts arm x h2 (by omega), hc]
    have hsv : ∀ x, listSetPy b.values arm x =
        listSetPy b.values (arm + (b.n_arms : Int)) x := by
      intro x
      rw [listSetPy_neg_alias b.values arm x h2 (by omega), hv]
    constructor
    · simp only [BaseBandit.update, hgc, hgv, hsc, hsv]
    · simp only [BaseBandit.reward, hgt]

/-- C3 amended witness: on a fresh 2-arm instance, arm 3 raises in both
`update` and `reward`, and arm `-1` behaves exactly like arm `-1 + 2 = 1`. -/
theorem arm_index_error_range_witness :
    ((BaseBandit.init 2 (some [1, 1]) []).update 3 1 = none
      ∧ (BaseBandit.init 2 (some [1, 1]) []).reward 3 0 = none)
    ∧ (BaseBandit.init 2 (some [1, 1]) []).update (-1) 1 =
        (BaseBandit.init 2 (some [1, 1]) []).update (-1 + 2) 1 := by
  refine ⟨(arm_index_error_range _ 3 1 0 rfl rfl rfl).1 (by decide), ?_⟩
  exact ((arm_index_error_range (BaseBandit.init 2 (some [1, 1]) []) (-1) 1 0
    rfl rfl rfl).2 (by decide) (by decide)).1

/-- C10. A supplied empty `true_probs` list is falsy in Python, so every
constructor treats it exactly like `None`: the empty list is discarded and
the freshly sampled list (the oracle for `np.random.uniform(0.1, 0.9,
size=n_arms)`) is stored instead; nothing is raised. -/
theorem empty_true_probs_discarded (n : ℕ) (eps a c : ℚ) (s : List ℚ) :
    BaseBandit.init n (some []) s = BaseBandit.init n none s
    ∧ (BaseBandit.init n (some []) s).true_probs = s
    ∧ EpsilonGreedy.init n eps (some []) s = EpsilonGreedy.init n eps none s
    ∧ UCB1.init n (some []) s = UCB1.init n none s
    ∧ Thompson.init n a c (some []) s = Thompson.init n a c none s := by
  simp [BaseBandit.init, EpsilonGreedy.init, UCB1.init, Thompson.init, pyProbsOr]

/-- C4 counterexample: with `epsilon = 0` the guard is the strict test
`random.random() > 0`, and `u = 0` is a possible output of
`random.random()` in `[0,1)`. At `u = 0` the explore branch runs: with
`values = [0, 1]` (arg-max 1) and exploration draw 0, `pull()` returns 0,
not the arg-max, and increments the explore counter. -/
theorem epsilon_zero_explore_cex :
    (EpsilonGreedy.pull ⟨⟨2, [1, 1], [1, 1], [0, 1]⟩, 0, 0, 0⟩ 0 0).2 = 0
    ∧ npArgmax ([0, 1] : List ℚ) = 1
    ∧ (EpsilonGreedy.pull ⟨⟨2, [1, 1], [1, 1], [0, 1]⟩, 0, 0, 0⟩ 0 0).1.explore_count
        = 1 := by
  refine ⟨?_, ?_, ?_⟩
  · simp [EpsilonGreedy.pull]
  · have h : ¬ ∀ y ∈ [(1 : ℚ)], y ≤ 0 := by
      intro h
      have := h 1 (by simp)
      norm_num at this
    simp [npArgmax, h]
  · simp [EpsilonGreedy.pull]

/-- C4 amended: with `epsilon = 0`, `pull()` exploits for every random
draw `u` in the open interval `(0, 1)` — returning the lowest index
attaining the maximum of `values` and incrementing the exploit counter —
but at the measure-zero draw `u = 0` the code takes the explore branch
instead (the guard `u > epsilon` is strict). -/
theorem epsilon_zero_exploit (b : EpsilonGreedy) (u : ℚ) (exploreArm : ℕ)
    (heps : b.epsilon = 0) (hu : 0 < u) (hne : b.base.values ≠ []) :
    (b.pull u exploreArm).2 = npArgmax b.base.values
    ∧ (b.pull u exploreArm).1.exploit_count = b.exploit_count + 1
    ∧ (b.pull u exploreArm).1.explore_count = b.explore_count
    ∧ (b.pull u exploreArm).2 < b.base.values.length
    ∧ (∀ j < b.base.values.length,
        b.base.values.getD j 0 ≤ b.base.values.getD ((b.pull u exploreArm).2) 0)
    ∧ (∀ j < (b.pull u exploreArm).2,
        b.base.values.getD j 0 < b.base.values.getD ((b.pull u exploreArm).2) 0) := by
  have hcond : b.epsilon < u := by rw [heps]; exact hu
  have hpull : b.pull u exploreArm =
      ({ b with exploit_count := b.exploit_count + 1 }, npArgmax b.base.values) := by
    simp [EpsilonGreedy.pull, hcond]
  rw [hpull]
  refine ⟨rfl, rfl, rfl, npArgmax_lt_length _ hne, ?_, ?_⟩
  · intro j hj
    exact npArgmax_is_max _ 0 j hj
  · intro j hj
    exact npArgmax_first _ 0 j hj

/-- C4 amended witness: at `values = [0, 1]`, `epsilon = 0`, `u = 1/2`,
`pull` returns the arg-max arm 1 and increments the exploit counter. -/
theorem epsilon_zero_exploit_witness :
    (EpsilonGreedy.pull ⟨⟨2, [1, 1], [1, 1], [0, 1]⟩, 0, 0, 0⟩ (1/2) 0).2 =
      npArgmax ([0, 1] : List ℚ)
    ∧ (EpsilonGreedy.pull ⟨⟨2, [1, 1], [1, 1], [0, 1]⟩, 0, 0, 0⟩ (1/2) 0).1.exploit_count
        = 0 + 1 :=
  have h := epsilon_zero_exploit ⟨⟨2, [1, 1], [1, 1], [0, 1]⟩, 0, 0, 0⟩ (1/2) 0
    rfl (by norm_num) (by decide)
  ⟨h.1, h.2.1⟩

/-- In a score list made of finite scores followed by `float("inf")`,
`np.argmax` picks the first infinite entry: index = number of finite ones. -/
theorem npArgmax_coe_top {α : Type} [LinearOrder α] (pre : List α)
    (suf : List (WithTop α)) :
    npArgmax ((pre.map WithTop.some) ++ ⊤ :: suf) = pre.length := by
  induction pre with
  | nil =>
    simp only [List.map_nil, List.nil_append, List.length_nil, npArgmax]
    rw [if_pos (fun y _ => le_top)]
  | cons x pre ih =>
    have hmem : (⊤ : WithTop α) ∈ (pre.map WithTop.some) ++ ⊤ :: suf := by simp
    have hcond : ¬ ∀ y ∈ (pre.map WithTop.some) ++ ⊤ :: suf,
        y ≤ WithTop.some x := by
      intro hall
      exact absurd (hall ⊤ hmem) (not_le.mpr (WithTop.coe_lt_top x))
    rw [List.map_cons, List.cons_append]
    simp only [npArgmax]
    rw [if_neg hcond, ih, List.length_cons]

/-- A pulled arm (`counts[i] ≠ 0`) has a finite (non-`⊤`) score. -/
theorem score_coe_of_counts_ne_zero (b : UCB1) (i : ℕ)
    (h : b.base.counts.getD i 0 ≠ 0) :
    b.score i = WithTop.some ((b.base.values.getD i 0 : ℝ) +
      Real.sqrt (2 * Real.log (b.total_pulls : ℝ) / (b.base.counts.getD i 0 : ℝ))) := by
  simp only [UCB1.score]
  rw [if_neg h]

/-- C5. On a fresh 4-arm UCB1 instance, four pull/update cycles select arms
0, 1, 2, 3 in order, whatever rewards the interleaved updates receive:
never-pulled arms score `float("inf")` and `np.argmax` breaks the tie at
the lowest index. -/
theorem ucb1_cold_start (tp : Option (List ℚ)) (s : List ℚ) (r1 r2 r3 r4 : ℚ) :
    ∃ b, (UCB1.init 4 tp s).run [r1, r2, r3, r4] = some (b, [0, 1, 2, 3]) := by
  set P := pyProbsOr tp s with hP
  have hr4 : List.range 4 = [0, 1, 2, 3] := rfl
  -- first pull: all four arms unpulled, all scores ⊤, arm 0 selected
  have hp0 : (⟨⟨4, P, [0, 0, 0, 0], [0, 0, 0, 0]⟩, 0⟩ : UCB1).pull =
      ((⟨⟨4, P, [0, 0, 0, 0], [0, 0, 0, 0]⟩, 1⟩ : UCB1), 0) := by
    have hs : ∀ i, (⟨⟨4, P, [0, 0, 0, 0], [0, 0, 0, 0]⟩, 1⟩ : UCB1).score i = ⊤ := by
      intro i
      have h0 : ([0, 0, 0, 0] : List ℕ).getD i 0 = 0 := by
        rcases i with _ | _ | _ | _ | i <;> rfl
      simp only [UCB1.score]
      rw [if_pos h0]
    have hlist : (List.range 4).map
        (⟨⟨4, P, [0, 0, 0, 0], [0, 0, 0, 0]⟩, 1⟩ : UCB1).score = [⊤, ⊤, ⊤, ⊤] := by
      rw [hr4]
      simp [hs]
    have harg : npArgmax ([⊤, ⊤, ⊤, ⊤] : List (WithTop ℝ)) = 0 := by
      have := npArgmax_coe_top ([] : List ℝ) [⊤, ⊤, ⊤]
      simpa using this
    simp only [UCB1.pull, hlist, harg]
  have hu0 : (⟨⟨4, P, [0, 0, 0, 0], [0, 0, 0, 0]⟩, 1⟩ : UCB1).update ((0 : ℕ) : Int) r1 =
      some ⟨⟨4, P, [1, 0, 0, 0], [r1, 0, 0, 0]⟩, 1⟩ := by
    rw [UCB1.update]
    norm_num [BaseBandit.update, listGetPy, listSetPy]
  -- second pull: arm 0 now has a finite score, arms 1..3 still score ⊤
  obtain ⟨x1, hx1⟩ : ∃ x : ℝ, (⟨⟨4, P, [1, 0, 0, 0], [r1, 0, 0, 0]⟩, 2⟩ : UCB1).score 0 =
      WithTop.some x :=
    ⟨_, score_coe_of_counts_ne_zero ⟨⟨4, P, [1, 0, 0, 0], [r1, 0, 0, 0]⟩, 2⟩ 0 (by simp)⟩
  have hp1 : (⟨⟨4, P, [1, 0, 0, 0], [r1, 0, 0, 0]⟩, 1⟩ : UCB1).pull =
      ((⟨⟨4, P, [1, 0, 0, 0], [r1, 0, 0, 0]⟩, 2⟩ : UCB1), 1) := by
    have ht1 : ∀ i, 1 ≤ i → (⟨⟨4, P, [1, 0, 0, 0], [r1, 0, 0, 0]⟩, 2⟩ : UCB1).score i
        = ⊤ := by
      intro i hi
      have h0 : ([1, 0, 0, 0] : List ℕ).getD i 0 = 0 := by
        rcases i with _ | _ | _ | _ | i
        · omega
        all_goals rfl
      simp only [UCB1.score]
      rw [if_pos h0]
    have hlist : (List.range 4).map
        (⟨⟨4, P, [1, 0, 0, 0], [r1, 0, 0, 0]⟩, 2⟩ : UCB1).score =
        [WithTop.some x1, ⊤, ⊤, ⊤] := by
      rw [hr4]
      simp only [List.map_cons, List.map_nil, hx1,
        ht1 1 le_rfl, ht1 2 (by omega), ht1 3 (by omega)]
    have harg : npArgmax ([WithTop.some x1, ⊤, ⊤, ⊤] : List (WithTop ℝ)) = 1 := by
      have := npArgmax_coe_top [x1] [⊤, ⊤]
      simpa using this
    simp [UCB1.pull, hlist, harg]
  have hu1 : (⟨⟨4, P, [1, 0, 0, 0], [r1, 0, 0, 0]⟩, 2⟩ : UCB1).update ((1 : ℕ) : Int) r2 =
      some ⟨⟨4, P, [1, 1, 0, 0], [r1, r2, 0, 0]⟩, 2⟩ := by
    rw [UCB1.update]
    norm_num [BaseBandit.update, listGetPy, listSetPy]
  -- third pull
  obtain ⟨x2, hx2⟩ : ∃ x : ℝ, (⟨⟨4, P, [1, 1, 0, 0], [r1, r2, 0, 0]⟩, 3⟩ : UCB1).score 0 =
      WithTop.some x :=
    ⟨_, score_coe_of_counts_ne_zero ⟨⟨4, P, [1, 1, 0, 0], [r1, r2, 0, 0]⟩, 3⟩ 0 (by simp)⟩
  obtain ⟨x3, hx3⟩ : ∃ x : ℝ, (⟨⟨4, P, [1, 1, 0, 0], [r1, r2, 0, 0]⟩, 3⟩ : UCB1).score 1 =
      WithTop.some x :=
    ⟨_, score_coe_of_counts_ne_zero ⟨⟨4, P, [1, 1, 0, 0], [r1, r2, 0, 0]⟩, 3⟩ 1 (by simp)⟩
  have hp2 : (⟨⟨4, P, [1, 1, 0, 0], [r1, r2, 0, 0]⟩, 2⟩ : UCB1).pull =
      ((⟨⟨4, P, [1, 1, 0, 0], [r1, r2, 0, 0]⟩, 3⟩ : UCB1), 2) := by
    have ht2 : ∀ i, 2 ≤ i → (⟨⟨4, P, [1, 1, 0, 0], [r1, r2, 0, 0]⟩, 3⟩ : UCB1).score i
        = ⊤ := by
      intro i hi
      have h0 : ([1, 1, 0, 0] : List ℕ).getD i 0 = 0 := by
        rcases i with _ | _ | _ | _ | i
        · omega
        · omega
        all_goals rfl
      simp only [UCB1.score]
      rw [if_pos h0]
    have hlist : (List.range 4).map
        (⟨⟨4, P, [1, 1, 0, 0], [r1, r2, 0, 0]⟩, 3⟩ : UCB1).score =
        [WithTop.some x2, WithTop.some x3, ⊤, ⊤] := by
      rw [hr4]
      simp only [List.map_cons, List.map_nil, hx2, hx3,
        ht2 2 le_rfl, ht2 3 (by omega)]
    have harg : npArgmax ([WithTop.some x2, WithTop.some x3, ⊤, ⊤] :
        List (WithTop ℝ)) = 2 := by
      have := npArgmax_coe_top [x2, x3] [⊤]
      simpa using this
    simp [UCB1.pull, hlist, harg]
  have hu2 : (⟨⟨4, P, [1, 1, 0, 0], [r1, r2, 0, 0]⟩, 3⟩ : UCB1).update ((2 : ℕ) : Int) r3 =
      some ⟨⟨4, P, [1, 1, 1, 0], [r1, r2, r3, 0]⟩, 3⟩ := by
    have e2 : (2 : Int).toNat = 2 := rfl
    rw [UCB1.update]
    norm_num [BaseBandit.update, listGetPy, listSetPy, e2]
  -- fourth pull
  obtain ⟨x4, hx4⟩ : ∃ x : ℝ, (⟨⟨4, P, [1, 1, 1, 0], [r1, r2, r3, 0]⟩, 4⟩ : UCB1).score 0 =
      WithTop.some x :=
    ⟨_, score_coe_of_counts_ne_zero ⟨⟨4, P, [1, 1, 1, 0], [r1, r2, r3, 0]⟩, 4⟩ 0 (by simp)⟩
  obtain ⟨x5, hx5⟩ : ∃ x : ℝ, (⟨⟨4, P, [1, 1, 1, 0], [r1, r2, r3, 0]⟩, 4⟩ : UCB1).score 1 =
      WithTop.some x :=
    ⟨_, score_coe_of_counts_ne_zero ⟨⟨4, P, [1, 1, 1, 0], [r1, r2, r3, 0]⟩, 4⟩ 1 (by simp)⟩
  obtain ⟨x6, hx6⟩ : ∃ x : ℝ, (⟨⟨4, P, [1, 1, 1, 0], [r1, r2, r3, 0]⟩, 4⟩ : UCB1).score 2 =
      WithTop.some x :=
    ⟨_, score_coe_of_counts_ne_zero ⟨⟨4, P, [1, 1, 1, 0], [r1, r2, r3, 0]⟩, 4⟩ 2 (by simp)⟩
  have hp3 : (⟨⟨4, P, [1, 1, 1, 0], [r1, r2, r3, 0]⟩, 3⟩ : UCB1).pull =
      ((⟨⟨4, P, [1, 1, 1, 0], [r1, r2, r3, 0]⟩, 4⟩ : UCB1), 3) := by
    have ht3 : (⟨⟨4, P, [1, 1, 1, 0], [r1, r2, r3, 0]⟩, 4⟩ : UCB1).score 3 = ⊤ := by
      have h0 : ([1, 1, 1, 0] : List ℕ).getD 3 0 = 0 := rfl
      simp only [UCB1.score]
      rw [if_pos h0]
    have hlist : (List.range 4).map
        (⟨⟨4, P, [1, 1, 1, 0], [r1, r2, r3, 0]⟩, 4⟩ : UCB1).score =
        [WithTop.some x4, WithTop.some x5, WithTop.some x6, ⊤] := by
      rw [hr4]
      simp only [List.map_cons, List.map_nil, hx4, hx5, hx6, ht3]
    have harg : npArgmax ([WithTop.some x4, WithTop.some x5, WithTop.some x6, ⊤] :
        List (WithTop ℝ)) = 3 := by
      have := npArgmax_coe_top [x4, x5, x6] []
      simpa using this
    simp [UCB1.pull, hlist, harg]
  have hu3 : (⟨⟨4, P, [1, 1, 1, 0], [r1, r2, r3, 0]⟩, 4⟩ : UCB1).update ((3 : ℕ) : Int) r4 =
      some ⟨⟨4, P, [1, 1, 1, 1], [r1, r2, r3, r4]⟩, 4⟩ := by
    have e3 : (3 : Int).toNat = 3 := rfl
    rw [UCB1.update]
    norm_num [BaseBandit.update, listGetPy, listSetPy, e3]
  refine ⟨⟨⟨4, P, [1, 1, 1, 1], [r1, r2, r3, r4]⟩, 4⟩, ?_⟩
  have hinit : UCB1.init 4 tp s = ⟨⟨4, P, [0, 0, 0, 0], [0, 0, 0, 0]⟩, 0⟩ := rfl
  rw [hinit]
  simp only [UCB1.run, List.foldlM_cons, List.foldlM_nil, UCB1.pullUpdate,
    hp0, hp1, hp2, hp3, hu0, hu1, hu2, hu3, Option.map_some', Option.bind_eq_bind,
    Option.some_bind, List.nil_append, List.cons_append]
  rfl

/-- C8. In `UCB1.pull()` the score loop runs on the state whose
`total_pulls` was already incremented, so whenever the logarithm is
evaluated its argument is at least 1; and the division by `counts[i]`
happens only in the branch where `counts[i] ≠ 0`, hence `counts[i] ≥ 1`
(a never-pulled arm takes the `float("inf")` branch instead). `pull` is a
total function: no log-of-zero or division-by-zero configuration is ever
evaluated. -/
theorem ucb1_pull_log_div_safe (b : UCB1) (i : ℕ) :
    1 ≤ ((b.pull).1).total_pulls
    ∧ (b.base.counts.getD i 0 = 0 → ((b.pull).1).score i = ⊤)
    ∧ (b.base.counts.getD i 0 ≠ 0 →
        1 ≤ b.base.counts.getD i 0
        ∧ ((b.pull).1).score i = WithTop.some
            ((b.base.values.getD i 0 : ℝ) + Real.sqrt (2 * Real.log
              ((((b.pull).1).total_pulls : ℕ) : ℝ) / (b.base.counts.getD i 0 : ℝ)))) := by
  have hbase : ((b.pull).1).base = b.base := rfl
  refine ⟨?_, ?_, ?_⟩
  · show 1 ≤ b.total_pulls + 1
    omega
  · intro h
    simp only [UCB1.score, hbase]
    rw [if_pos h]
  · intro h
    refine ⟨Nat.one_le_iff_ne_zero.mpr h, ?_⟩
    have := score_coe_of_counts_ne_zero ((b.pull).1) i (by rw [hbase]; exact h)
    rw [this, hbase]

/-- C8 witness: on a state with `counts = [0, 2]`, after the increment
inside `pull` the log argument is ≥ 1 and arm 1's divisor is ≥ 1. -/
theorem ucb1_pull_log_div_safe_witness :
    1 ≤ (((⟨⟨2, [1, 1], [0, 2], [0, 1/2]⟩, 2⟩ : UCB1).pull).1).total_pulls
    ∧ 1 ≤ (⟨⟨2, [1, 1], [0, 2], [0, 1/2]⟩, 2⟩ : UCB1).base.counts.getD 1 0 :=
  have h := ucb1_pull_log_div_safe ⟨⟨2, [1, 1], [0, 2], [0, 1/2]⟩, 2⟩ 1
  ⟨h.1, (h.2.2 (by simp)).1⟩

/-- C6. For an in-range arm `i` and a binary reward `r ∈ {0, 1}`,
`Thompson.update(i, r)` adds `r` to `alphas[i]`, `1 - r` to `betas[i]`
(so `alphas[i] + betas[i]` grows by exactly 1), leaves every other arm's
parameters untouched, and preserves positivity of all `alphas`/`betas`. -/
theorem thompson_update_posterior (t : Thompson) (i : ℕ) (r : ℚ)
    (hi : i < t.base.n_arms)
    (hc : t.base.counts.length = t.base.n_arms)
    (hv : t.base.values.length = t.base.n_arms)
    (ha : t.alphas.length = t.base.n_arms)
    (hb : t.betas.length = t.base.n_arms)
    (hr : r = 0 ∨ r = 1) :
    ∃ t', t.update (i : Int) r = some t'
      ∧ t'.alphas.getD i 0 = t.alphas.getD i 0 + r
      ∧ t'.betas.getD i 0 = t.betas.getD i 0 + (1 - r)
      ∧ t'.alphas.getD i 0 + t'.betas.getD i 0
          = t.alphas.getD i 0 + t.betas.getD i 0 + 1
      ∧ (∀ j, j ≠ i → t'.alphas.getD j 0 = t.alphas.getD j 0
          ∧ t'.betas.getD j 0 = t.betas.getD j 0)
      ∧ ((∀ j < t.base.n_arms, 0 < t.alphas.getD j 0) →
         (∀ j < t.base.n_arms, 0 < t.betas.getD j 0) →
         (∀ j < t.base.n_arms, 0 < t'.alphas.getD j 0)
          ∧ (∀ j < t.base.n_arms, 0 < t'.betas.getD j 0)) := by
  have hstep := update_natCast t.base i r (by omega) (by omega)
  rcases hr with rfl | rfl
  · refine ⟨{ t with
        base := { t.base with
          counts := t.base.counts.set i (t.base.counts.getD i 0 + 1),
          values := t.base.values.set i (t.base.values.getD i 0 +
            ((0 : ℚ) - t.base.values.getD i 0) /
              (((t.base.counts.getD i 0 + 1 : ℕ) : ℚ))) },
        betas := t.betas.set i (t.betas.getD i 0 + 1) }, ?_, ?_, ?_, ?_, ?_, ?_⟩
    · simp only [Thompson.update, hstep, Option.bind_eq_bind, Option.some_bind,
        ne_eq, not_true_eq_false, if_false,
        listGetPy_natCast, get?_eq_some_getD t.betas i 0 (by omega),
        listSetPy_natCast t.betas i (t.betas.getD i 0 + 1) (by omega)]
    · simp
    · rw [getD_set_self t.betas i _ 0 (by omega)]
      norm_num
    · rw [getD_set_self _ _ _ _ (by omega)]
      ring
    · intro j hj
      exact ⟨rfl, getD_set_ne _ _ _ _ _ (fun h => hj h.symm)⟩
    · intro hpa hpb
      refine ⟨hpa, ?_⟩
      intro j hj
      by_cases hji : j = i
      · subst hji
        rw [getD_set_self _ _ _ _ (by omega)]
        have := hpb j hj
        linarith
      · rw [getD_set_ne _ _ _ _ _ (fun h => hji h.symm)]
        exact hpb j hj
  · refine ⟨{ t with
        base := { t.base with
          counts := t.base.counts.set i (t.base.counts.getD i 0 + 1),
          values := t.base.values.set i (t.base.values.getD i 0 +
            ((1 : ℚ) - t.base.values.getD i 0) /
              (((t.base.counts.getD i 0 + 1 : ℕ) : ℚ))) },
        alphas := t.alphas.set i (t.alphas.getD i 0 + 1) }, ?_, ?_, ?_, ?_, ?_, ?_⟩
    · simp only [Thompson.update, hstep, Option.bind_eq_bind, Option.some_bind,
        ne_eq, one_ne_zero, not_false_eq_true, if_true,
        listGetPy_natCast, get?_eq_some_getD t.alphas i 0 (by omega),
        listSetPy_natCast t.alphas i (t.alphas.getD i 0 + 1) (by omega)]
    · exact getD_set_self _ _ _ _ (by omega)
    · simp
    · rw [getD_set_self _ _ _ _ (by omega)]
      ring
    · intro j hj
      exact ⟨getD_set_ne _ _ _ _ _ (fun h => hj h.symm), rfl⟩
    · intro hpa hpb
      refine ⟨?_, hpb⟩
      intro j hj
      by_cases hji : j = i
      · subst hji
        rw [getD_set_self _ _ _ _ (by omega)]
        have := hpa j hj
        linarith
      · rw [getD_set_ne _ _ _ _ _ (fun h => hji h.symm)]
        exact hpa j hj

/-- C6 witness: on a fresh 2-arm Thompson instance with the default uniform
prior, `update(0, 1)` gives `alphas = [2, 1]`, `betas = [1, 1]`. -/
theorem thompson_update_posterior_witness :
    0 < 2 ∧ ∃ t', (Thompson.init 2 1 1 (some [1, 1]) []).update ((0 : ℕ) : Int) 1 = some t'
      ∧ t'.alphas.getD 0 0 = (Thompson.init 2 1 1 (some [1, 1]) []).alphas.getD 0 0 + 1
      ∧ t'.betas.getD 0 0 = (Thompson.init 2 1 1 (some [1, 1]) []).betas.getD 0 0 + (1 - 1) :=
  have h := thompson_update_posterior (Thompson.init 2 1 1 (some [1, 1]) []) 0 1
    (by decide) rfl rfl rfl rfl (Or.inr rfl)
  ⟨by norm_num, h.imp (fun t' ht => ⟨ht.1, ht.2.1, ht.2.2.1⟩)⟩

/-- One `warm_up` loop iteration: the visited arm's count grows by 1 and its
posterior mass `alphas[k] + betas[k]` by exactly 1 (the drawn reward `r`
adds `r` to `alphas[k]` and `1 - r` to `betas[k]`); other arms untouched. -/
theorem warmUpStep_spec (t : Thompson) (k : ℕ) (u : ℚ)
    (ht : k < t.base.true_probs.length) (hc : k < t.base.counts.length)
    (hv : k < t.base.values.length) (ha : k < t.alphas.length)
    (hb : k < t.betas.length) :
    ∃ t', t.warmUpStep k u = some t'
      ∧ t'.base.n_arms = t.base.n_arms
      ∧ t'.base.true_probs = t.base.true_probs
      ∧ t'.base.counts.length = t.base.counts.length
      ∧ t'.base.values.length = t.base.values.length
      ∧ t'.alphas.length = t.alphas.length
      ∧ t'.betas.length = t.betas.length
      ∧ t'.base.counts.getD k 0 = t.base.counts.getD k 0 + 1
      ∧ (∀ j, j ≠ k → t'.base.counts.getD j 0 = t.base.counts.getD j 0)
      ∧ t'.alphas.getD k 0 + t'.betas.getD k 0
          = t.alphas.getD k 0 + t.betas.getD k 0 + 1
      ∧ (∀ j, j ≠ k → t'.alphas.getD j 0 = t.alphas.getD j 0
          ∧ t'.betas.getD j 0 = t.betas.getD j 0) := by
  set p := t.base.true_probs.getD k 0 with hp
  set r : ℕ := if u < p then 1 else 0 with hrdef
  have hrw : t.base.reward (k : Int) u = some r := by
    simp only [BaseBandit.reward, listGetPy_natCast, get?_eq_some_getD _ _ 0 ht,
      Option.map_some']
  have hstep := update_natCast t.base k (r : ℚ) hc hv
  refine ⟨{ t with
      base := { t.base with
        counts := t.base.counts.set k (t.base.counts.getD k 0 + 1),
        values := t.base.values.set k (t.base.values.getD k 0 +
          ((r : ℚ) - t.base.values.getD k 0) /
            (((t.base.counts.getD k 0 + 1 : ℕ) : ℚ))) },
      alphas := t.alphas.set k (t.alphas.getD k 0 + (r : ℚ)),
      betas := t.betas.set k (t.betas.getD k 0 + (1 - (r : ℚ))) },
    ?_, rfl, rfl, by simp, by simp, by simp, by simp, ?_, ?_, ?_, ?_⟩
  · simp only [Thompson.warmUpStep, hrw, hstep, Option.bind_eq_bind, Option.some_bind,
      listGetPy_natCast, get?_eq_some_getD t.alphas k 0 ha,
      listSetPy_natCast t.alphas k (t.alphas.getD k 0 + (r : ℚ)) ha,
      get?_eq_some_getD t.betas k 0 hb,
      listSetPy_natCast t.betas k (t.betas.getD k 0 + (1 - (r : ℚ))) hb]
  · exact getD_set_self _ _ _ _ hc
  · intro j hj
    exact getD_set_ne _ _ _ _ _ (fun h => hj h.symm)
  · rw [getD_set_self _ _ _ _ ha, getD_set_self _ _ _ _ hb]
    ring
  · intro j hj
    exact ⟨getD_set_ne _ _ _ _ _ (fun h => hj h.symm),
      getD_set_ne _ _ _ _ _ (fun h => hj h.symm)⟩

/-- C7. After one `warm_up()` on a fresh 3-arm Thompson instance with prior
`(initial_alpha, initial_beta) = (a, c)`, every arm has `counts[i] = 1` and
`alphas[i] + betas[i] = a + c + 1`: warm-up visits arms 0, 1, 2 in index
order, drawing one reward and applying the base update and the posterior
increment at each. -/
theorem thompson_warm_up_seeds (a c p0 p1 p2 : ℚ) (us : ℕ → ℚ) :
    ∃ t', (Thompson.init 3 a c (some [p0, p1, p2]) []).warm_up us = some t'
      ∧ (∀ i < 3, t'.base.counts.getD i 0 = 1)
      ∧ (∀ i < 3, t'.alphas.getD i 0 + t'.betas.getD i 0 = a + c + 1) := by
  set t0 := Thompson.init 3 a c (some [p0, p1, p2]) [] with ht0
  have htp0 : t0.base.true_probs = [p0, p1, p2] := by
    simp [ht0, Thompson.init, BaseBandit.init, pyProbsOr]
  have ltp0 : t0.base.true_probs.length = 3 := by rw [htp0]; rfl
  have lc0 : t0.base.counts.length = 3 := rfl
  have lv0 : t0.base.values.length = 3 := rfl
  have la0 : t0.alphas.length = 3 := rfl
  have lb0 : t0.betas.length = 3 := rfl
  obtain ⟨t1, hrun1, hn1, htp1, hcl1, hvl1, hal1, hbl1, hck1, hcj1, hs1, hj1⟩ :=
    warmUpStep_spec t0 0 (us 0) (by omega) (by omega) (by omega) (by omega) (by omega)
  obtain ⟨t2, hrun2, hn2, htp2, hcl2, hvl2, hal2, hbl2, hck2, hcj2, hs2, hj2⟩ :=
    warmUpStep_spec t1 1 (us 1) (by rw [htp1]; omega) (by omega) (by omega)
      (by omega) (by omega)
  obtain ⟨t3, hrun3, hn3, htp3, hcl3, hvl3, hal3, hbl3, hck3, hcj3, hs3, hj3⟩ :=
    warmUpStep_spec t2 2 (us 2) (by rw [htp2, htp1]; omega) (by omega) (by omega)
      (by omega) (by omega)
  have hnarms : t0.base.n_arms = 3 := rfl
  have hr3 : List.range 3 = [0, 1, 2] := rfl
  refine ⟨t3, ?_, ?_, ?_⟩
  · rw [Thompson.warm_up, hnarms, hr3]
    simp only [List.foldlM_cons, List.foldlM_nil, hrun1, hrun2, hrun3,
      Option.bind_eq_bind, Option.some_bind]
    rfl
  · intro i hi
    interval_cases i
    · rw [hcj3 0 (by omega), hcj2 0 (by omega), hck1]
      rfl
    · rw [hcj3 1 (by omega), hck2, hcj1 1 (by omega)]
      rfl
    · rw [hck3, hcj2 2 (by omega), hcj1 2 (by omega)]
      rfl
  · intro i hi
    interval_cases i
    · rw [(hj3 0 (by omega)).1, (hj3 0 (by omega)).2,
        (hj2 0 (by omega)).1, (hj2 0 (by omega)).2]
      rw [hs1]
      norm_num [ht0, Thompson.init]
    · rw [(hj3 1 (by omega)).1, (hj3 1 (by omega)).2, hs2,
        (hj1 1 (by omega)).1, (hj1 1 (by omega)).2]
      norm_num [ht0, Thompson.init]
    · rw [hs3, (hj2 2 (by omega)).1, (hj2 2 (by omega)).2,
        (hj1 2 (by omega)).1, (hj1 2 (by omega)).2]
      norm_num [ht0, Thompson.init]

/-- Sum of squared differences over a zip equals the indexwise sum. -/
theorem zip_sq_sum (xs : List ℚ) : ∀ (ys : List ℚ), xs.length = ys.length →
    ((xs.zip ys).map (fun et => (et.1 - et.2) ^ 2)).sum
      = ∑ i ∈ Finset.range xs.length, (xs.getD i 0 - ys.getD i 0) ^ 2 := by
  induction xs with
  | nil =>
    intro ys _
    simp
  | cons x xs ih =>
    intro ys hlen
    rcases ys with _ | ⟨y, ys⟩
    · simp at hlen
    · simp only [List.length_cons] at hlen
      simp only [List.zip_cons_cons, List.map_cons, List.sum_cons, List.length_cons]
      rw [Finset.sum_range_succ', ih ys (by omega)]
      simp only [List.getD_cons_succ, List.getD_cons_zero]
      ring

/-- C9. `rmse()` computes exactly the spec formula
`sqrt(mean over all n_arms entries of (estimated_means[i] - true_probs[i])^2)`
(under the length invariant, with `n_arms ≥ 1`), as a pure function of the
state — the embedding is stateless, mirroring that the method mutates
nothing — and it returns 0 whenever `estimated_means()` equals
`true_probs` elementwise. -/
theorem rmse_matches_spec (b : BaseBandit)
    (hv : b.values.length = b.n_arms) (ht : b.true_probs.length = b.n_arms)
    (hn : 1 ≤ b.n_arms) :
    b.rmse = specRmse b ∧ (b.estimated_means = b.true_probs → b.rmse = 0) := by
  have hlen : b.sqErrors.length = b.n_arms := by
    simp [BaseBandit.sqErrors, BaseBandit.estimated_means, hv, ht]
  have hsum : b.sqErrors.sum = ∑ i ∈ Finset.range b.n_arms,
      (b.values.getD i 0 - b.true_probs.getD i 0) ^ 2 := by
    have h := zip_sq_sum b.values b.true_probs (by rw [hv, ht])
    rw [hv] at h
    exact h
  constructor
  · rw [BaseBandit.rmse, specRmse, BaseBandit.mse, hsum, hlen]
    rfl
  · intro hvt
    have hz : ∑ i ∈ Finset.range b.n_arms,
        (b.values.getD i 0 - b.true_probs.getD i 0) ^ 2 = 0 := by
      apply Finset.sum_eq_zero
      intro i _
      have : b.values = b.true_probs := hvt
      rw [this]
      ring
    rw [BaseBandit.rmse, BaseBandit.mse, hsum, hz]
    simp

/-- C9 witness: a one-arm state whose estimate equals its true probability
has RMSE 0, and the code formula agrees with the spec formula there. -/
theorem rmse_matches_spec_witness :
    (⟨1, [0], [0], [0]⟩ : BaseBandit).rmse = specRmse ⟨1, [0], [0], [0]⟩
    ∧ (⟨1, [0], [0], [0]⟩ : BaseBandit).rmse = 0 :=
  have h := rmse_matches_spec ⟨1, [0], [0], [0]⟩ rfl rfl (by norm_num)
  ⟨h.1, h.2 rfl⟩

end Bandits
